import Mathlib

/-!
Verification development for the Hugo deployment server (main.go).

The Go source is shallowly embedded: strings are lists of characters,
the relevant functions of the path and strings packages are translated
segment-for-segment from their Go sources (Unix separator, no volume
names), and the two stateful routines (handleDeploy and extractZip) are
translated to pure functions that return the HTTP response together with
a trace of the filesystem operations they perform on the deployment
tree.  Filesystem writes performed by extractZip are modelled as
succeeding; per-file upload errors, which the handler is specified to
swallow, are modelled by explicit failure flags on each uploaded part.
-/

namespace HugoDeploy

/-- Go strings are modelled as lists of characters. -/
abbrev GoStr := List Char

/-- Shorthand turning a Lean string literal into the model type. -/
def gs (s : String) : GoStr := s.data

/-- One path segment (the text between separators). -/
abbrev Seg := List Char

/-- The two-dot segment. -/
def dd : Seg := ['.', '.']

/-- Splitting a string at every separator, keeping empty segments,
exactly as the segment scanner inside Go path/filepath.Clean sees the
input. -/
def splitOnSlash : List Char → List Seg
  | [] => [[]]
  | c :: rest =>
      if c = '/' then [] :: splitOnSlash rest
      else
        match splitOnSlash rest with
        | s :: ss => (c :: s) :: ss
        | [] => [[c]]

/-- Joining segments with the separator (the output buffer of Clean). -/
def joinSegs : List Seg → GoStr
  | [] => []
  | [s] => s
  | s :: rest => s ++ '/' :: joinSegs rest

/-- Loop body of Go filepath.Clean for one segment: empty and dot
segments are dropped; a two-dot segment pops the last kept segment when
one is available (the kept output beyond the leading two-dot run is
nonempty), is dropped at the root of a rooted path, and is kept when a
relative path cannot backtrack further.  The accumulator holds the kept
segments in reverse. -/
def normStep (rooted : Bool) (acc : List Seg) (s : Seg) : List Seg :=
  if s = [] ∨ s = ['.'] then acc
  else if s = dd then
    match acc with
    | [] => if rooted then [] else [dd]
    | a :: accTail =>
        if a = dd then
          (if rooted then a :: accTail else dd :: a :: accTail)
        else accTail
  else s :: acc

/-- Core loop of Go filepath.Clean: fold the step over the segments and
return the kept segments in order. -/
def normLoop (rooted : Bool) : List Seg → List Seg → List Seg
  | acc, [] => acc.reverse
  | acc, s :: rest => normLoop rooted (normStep rooted acc s) rest

/-- Whether the path begins with the separator. -/
def isRooted (s : GoStr) : Bool :=
  match s with
  | [] => false
  | c :: _ => c = '/'

/-- Rendering the kept segments back into a path, as Clean does: a
rooted path keeps its leading separator, and an empty relative result
becomes a single dot. -/
def render (rooted : Bool) (segs : List Seg) : GoStr :=
  if rooted then '/' :: joinSegs segs
  else if segs = [] then ['.'] else joinSegs segs

/-- Go filepath.Clean on Unix paths. -/
def clean (s : GoStr) : GoStr :=
  if s = [] then ['.']
  else render (isRooted s) (normLoop (isRooted s) [] (splitOnSlash s))

/-- Go filepath.Join restricted to two arguments, from its source: the
leading empty elements are skipped and the rest is joined with the
separator and cleaned; joining an empty first element with a trailing
empty element reduces to cleaning the first. -/
def join2 (a b : GoStr) : GoStr :=
  if a = [] then (if b = [] then [] else clean b)
  else clean (a ++ '/' :: b)

/-- The portion of the path up to and including the last separator
(empty when there is none), as computed inside Go filepath.Dir. -/
def dropLastComponent (s : GoStr) : GoStr :=
  (s.reverse.dropWhile (fun c => !(c = '/' : Bool))).reverse

/-- Go filepath.Dir on Unix paths. -/
def dirPath (s : GoStr) : GoStr := clean (dropLastComponent s)

/-- Go filepath.Base on Unix paths: strip trailing separators, take the
last segment; an empty input gives a dot and an all-separator input
gives the separator. -/
def baseName (s : GoStr) : GoStr :=
  if s = [] then ['.']
  else
    let t := s.reverse.dropWhile (fun c => (c = '/' : Bool))
    let b := (t.takeWhile (fun c => !(c = '/' : Bool))).reverse
    if b = [] then ['/'] else b

/-- Go strings.Contains. -/
def goContains (s sub : GoStr) : Bool :=
  match s with
  | [] => List.isPrefixOf sub []
  | c :: rest => List.isPrefixOf sub (c :: rest) || goContains rest sub

/-- Go strings.HasPrefix. -/
def hasPref (pre s : GoStr) : Bool := List.isPrefixOf pre s

/-- Go strings.TrimPrefix. -/
def trimPref (pre s : GoStr) : GoStr :=
  if hasPref pre s then s.drop pre.length else s

/-- Decimal rendering of a natural number (fmt uses it for %d); the
first argument is recursion fuel. -/
def natToStrAux : Nat → Nat → GoStr
  | 0, _ => []
  | fuel + 1, n =>
      if n < 10 then [Char.ofNat (48 + n)]
      else natToStrAux fuel (n / 10) ++ [Char.ofNat (48 + n % 10)]

/-- Decimal rendering of a natural number. -/
def natToStr (n : Nat) : GoStr := natToStrAux (n + 1) n

/-! ### crypto/subtle, translated from the Go standard library source -/

/-- Go subtle.ConstantTimeByteEq, computed with 32-bit wraparound
arithmetic exactly as in its source: the result is 1 when the two bytes
are equal and 0 otherwise. -/
def constantTimeByteEq (x y : Nat) : Nat :=
  (((x ^^^ y) + (4294967296 - 1)) % 4294967296) >>> 31

/-- The accumulated or of the xors of corresponding bytes, the loop
inside Go subtle.ConstantTimeCompare. -/
def byteXorFold (x y : GoStr) : Nat :=
  (List.zip x y).foldl (fun v p => v ||| (p.1.toNat ^^^ p.2.toNat)) 0

/-- Go subtle.ConstantTimeCompare: 0 immediately on a length mismatch,
otherwise the loop ors together the xors of all byte pairs with no
early exit and the result compares the accumulator with zero. -/
def constantTimeCompare (x y : GoStr) : Nat :=
  if x.length ≠ y.length then 0
  else constantTimeByteEq (byteXorFold x y) 0

/-- Loop iterations executed by constantTimeCompare on the given
inputs: the comparison loop always runs once per byte of the first
argument, regardless of the byte values. -/
def constantTimeCompareCost (x y : GoStr) : Nat :=
  if x.length ≠ y.length then 0 else x.length

/-! ### Data model of the server -/

/-- The configuration fields read by the intake core. -/
structure GoConfig where
  authToken : GoStr
  deploymentPath : GoStr
  exportType : GoStr
  allowedOrigins : GoStr
  deriving DecidableEq

/-- One write to the deployment tree. -/
inductive FsOp where
  | mkdirAll (path : GoStr)
  | createFile (path : GoStr)
  deriving DecidableEq

/-- The path an operation writes to. -/
def opPath : FsOp → GoStr
  | .mkdirAll p => p
  | .createFile p => p

/-- One entry of a ZIP archive as extractZip consumes it. -/
structure ZipEntry where
  name : GoStr
  isDir : Bool
  mode : Nat
  deriving DecidableEq

/-- An uploaded archive: either one that zip.OpenReader rejects, or the
list of its entries in stored order. -/
inductive Archive where
  | malformed
  | entries (l : List ZipEntry)
  deriving DecidableEq

/-- One part of the multipart files field.  The three flags model the
three per-file operations of the upload loop that can fail at the
filesystem or stream level. -/
structure FilePart where
  filename : GoStr
  contentType : GoStr
  size : Nat
  openFails : Bool
  createFails : Bool
  copyFails : Bool
  deriving DecidableEq

/-- The record the handler appends to the response manifest for each
file it saves. -/
structure FileInfo where
  path : GoStr
  contentType : GoStr
  size : Nat
  deriving DecidableEq

/-- The JSON envelope written back to the client.  Error envelopes and
the health response carry no file records, matching sendResponse. -/
structure HttpResponse where
  status : Nat
  success : Bool
  message : GoStr
  files : List FileInfo
  deriving DecidableEq

/-- Go sendResponse: the uniform JSON envelope with no files array. -/
def sendResponse (success : Bool) (message : GoStr) (status : Nat) : HttpResponse :=
  { status := status, success := success, message := message, files := [] }

/-- A parsed /deploy request.  bodySize is the total size of the
request body in bytes; per the Go net/http documentation,
ParseMultipartForm reads the whole body whatever its size (its argument
only bounds in-memory storage of file parts, larger parts spill to
temporary files), and handleDeploy discards its error, so no field of
the handler depends on bodySize. -/
structure DeployRequest where
  method : GoStr
  exportType : GoStr
  relativePath : GoStr
  initVal : GoStr
  templateZip : Option Archive
  files : List FilePart
  bodySize : Nat
  deriving DecidableEq

/-! ### extractZip -/

/-- The zip-slip guard of extractZip: the joined entry path must start
with the cleaned destination directory followed by the separator. -/
def entryPathOk (destDir name : GoStr) : Bool :=
  hasPref (clean destDir ++ ['/']) (join2 destDir name)

/-- The per-entry loop of extractZip.  For each entry the full target
path is joined, the zip-slip guard is applied (aborting the whole
extraction with an error naming the entry), then a directory entry is
created with MkdirAll and a file entry gets its parent directory
created, the file created or truncated, and the bytes copied.
Filesystem writes are modelled as succeeding and are returned as a
trace. -/
def extractEntries (destDir : GoStr) : List ZipEntry → Option GoStr × List FsOp
  | [] => (none, [])
  | e :: rest =>
      let path := join2 destDir e.name
      if !(entryPathOk destDir e.name) then
        (some (gs "illegal file path: " ++ e.name), [])
      else if e.isDir then
        let r := extractEntries destDir rest
        (r.1, FsOp.mkdirAll path :: r.2)
      else
        let r := extractEntries destDir rest
        (r.1, FsOp.mkdirAll (dirPath path) :: FsOp.createFile path :: r.2)

/-- Go extractZip: open the archive (a malformed archive is the error
zip.OpenReader reports), ensure the destination directory exists, then
extract the entries in stored order.  The Go function returns only an
error value; the trace component records the writes for reasoning. -/
def extractZipGo (ar : Archive) (destDir : GoStr) : Option GoStr × List FsOp :=
  match ar with
  | .malformed => (some (gs "zip: not a valid zip file"), [])
  | .entries l =>
      let r := extractEntries destDir l
      (r.1, FsOp.mkdirAll destDir :: r.2)

/-! ### handleDeploy -/

/-- The export type used for the request: form value, else configured
value, else the hardcoded hugo fallback. -/
def exportTypeOf (cfg : GoConfig) (req : DeployRequest) : GoStr :=
  if req.exportType = [] then
    (if cfg.exportType = [] then gs "hugo" else cfg.exportType)
  else req.exportType

/-- The guard applied to the relative_path form value: a non-empty
value containing the two-dot substring is rejected. -/
def relPathBad (r : GoStr) : Bool :=
  if r = [] then false else goContains r (gs "..")

/-- The deployment path of the request: the deployment root joined with
the export type, then joined with the relative path when one was
supplied. -/
def deployPathOf (cfg : GoConfig) (req : DeployRequest) : GoStr :=
  let base := join2 cfg.deploymentPath (exportTypeOf cfg req)
  if req.relativePath = [] then base else join2 base req.relativePath

/-- The record built for one saved upload. -/
def mkRecord (relativePath : GoStr) (fh : FilePart) : FileInfo :=
  { path := join2 relativePath (baseName fh.filename)
    contentType := fh.contentType
    size := fh.size }

/-- The per-file loop of handleDeploy: base-name the caller-supplied
filename, join it under the deployment path, then open, create and
copy; any of the three failing skips the file (the batch continues) and
only full successes are appended to the manifest.  A create that
succeeds truncates or creates the target file even when the copy then
fails, so its write is traced. -/
def processFiles (deployPath relativePath : GoStr) :
    List FilePart → List FileInfo × List FsOp
  | [] => ([], [])
  | fh :: rest =>
      let filename := baseName fh.filename
      let targetPath := join2 deployPath filename
      if fh.openFails then processFiles deployPath relativePath rest
      else if fh.createFails then processFiles deployPath relativePath rest
      else
        let r := processFiles deployPath relativePath rest
        if fh.copyFails then (r.1, FsOp.createFile targetPath :: r.2)
        else (mkRecord relativePath fh :: r.1, FsOp.createFile targetPath :: r.2)

/-- The normal-upload tail of handleDeploy: at least one file part is
required, and the success envelope carries the manifest and a
count-based message. -/
def normalUpload (deployPath relativePath : GoStr) (files : List FilePart)
    (mkOp : FsOp) : HttpResponse × List FsOp :=
  if files = [] then (sendResponse false (gs "No files sent") 400, [mkOp])
  else
    let r := processFiles deployPath relativePath files
    ({ status := 200
       success := true
       message := gs "Successfully saved " ++ natToStr r.1.length
                    ++ gs " files to " ++ deployPath
       files := r.1 },
     mkOp :: r.2)

/-- Go handleDeploy, translated statement for statement: the method
gate, the multipart parse whose outcome the code discards, the export
type and relative path resolution with the substring guard, MkdirAll on
the deployment path, the init branch that extracts a supplied template
archive and returns at once, and otherwise the per-file upload loop. -/
def handleDeploy (cfg : GoConfig) (req : DeployRequest) :
    HttpResponse × List FsOp :=
  if req.method ≠ gs "POST" then
    (sendResponse false (gs "Method not allowed") 405, [])
  else
    let exportType := exportTypeOf cfg req
    let relativePath := req.relativePath
    if relPathBad relativePath then
      (sendResponse false (gs "Invalid relative path") 400, [])
    else
      let deployPath := deployPathOf cfg req
      let mkOp := FsOp.mkdirAll deployPath
      if req.initVal = gs "true" then
        match req.templateZip with
        | some ar =>
            let r := extractZipGo ar deployPath
            match r.1 with
            | some msg =>
                (sendResponse false (gs "Error extracting ZIP file: " ++ msg) 500,
                 mkOp :: r.2)
            | none =>
                ({ status := 200
                   success := true
                   message := gs "Successfully initialized " ++ exportType
                                ++ gs " site template at " ++ deployPath
                   files := [] },
                 mkOp :: r.2)
        | none => normalUpload deployPath relativePath req.files mkOp
      else normalUpload deployPath relativePath req.files mkOp

/-! ### authenticateMiddleware -/

/-- Outcome of the middleware: the preflight short-circuit, a rejection
envelope, or handing the request to the wrapped handler. -/
inductive AdmitOutcome where
  | preflight
  | rejected (msg : GoStr)
  | next
  deriving DecidableEq

/-- Go authenticateMiddleware: OPTIONS requests get an empty 200 before
any auth check; the Authorization header must carry the Bearer scheme;
the extracted token is compared with the configured secret by
subtle.ConstantTimeCompare and only a match reaches the wrapped
handler.  The CORS headers it sets carry no decision and are not
modelled. -/
def authenticateMiddleware (cfg : GoConfig) (method authHeader : GoStr) :
    AdmitOutcome :=
  if method = gs "OPTIONS" then .preflight
  else if !(hasPref (gs "Bearer ") authHeader) then
    .rejected (gs "Invalid authentication")
  else
    let token := trimPref (gs "Bearer ") authHeader
    if constantTimeCompare token cfg.authToken ≠ 1 then
      .rejected (gs "Invalid token")
    else .next

/-! ### Spec-side notions used to state the claims -/

/-- Containment of an already-resolved path in a root, in the words of
the PathGuard section of the spec: the normalized result must equal the
root or start with the root followed by the separator. -/
def withinRootPath (root p : GoStr) : Bool :=
  p = clean root || hasPref (clean root ++ ['/']) p

/-- The spec-side acceptance condition of PathGuard: the candidate,
joined with the root and lexically normalized, stays equal to or nested
inside the normalized root. -/
def specWithinRoot (root candidate : GoStr) : Bool :=
  withinRootPath root (join2 root candidate)

/-- The candidate contains a two-dot traversal segment (not merely the
two-dot substring). -/
def hasDotDotSegment (r : GoStr) : Prop := dd ∈ splitOnSlash r

instance (r : GoStr) : Decidable (hasDotDotSegment r) := by
  unfold hasDotDotSegment; infer_instance

/-! ### Concrete fixtures for witnesses and counterexamples -/

/-- A configuration with an empty export type, so the hardcoded hugo
fallback applies. -/
def cfgFix : GoConfig :=
  { authToken := gs "s3cret"
    deploymentPath := gs "/srv/deploy"
    exportType := gs ""
    allowedOrigins := gs "" }

/-- An upload part that succeeds. -/
def filePartA : FilePart :=
  { filename := gs "a.txt", contentType := gs "text/plain", size := 10,
    openFails := false, createFails := false, copyFails := false }

/-- A second upload part that succeeds. -/
def filePartB : FilePart :=
  { filename := gs "b.txt", contentType := gs "text/plain", size := 20,
    openFails := false, createFails := false, copyFails := false }

/-- An upload part whose source stream fails to open. -/
def filePartBad : FilePart :=
  { filename := gs "bad.txt", contentType := gs "text/plain", size := 5,
    openFails := true, createFails := false, copyFails := false }

/-- A 150 MiB upload part. -/
def bigPart : FilePart :=
  { filename := gs "big.bin", contentType := gs "application/octet-stream",
    size := 157286400,
    openFails := false, createFails := false, copyFails := false }

/-- The baseline deploy request the fixtures vary. -/
def reqBase : DeployRequest :=
  { method := gs "POST", exportType := gs "", relativePath := gs "",
    initVal := gs "", templateZip := none, files := [filePartA],
    bodySize := 1024 }

/-- Request whose export type walks out of the deployment root. -/
def reqC2 : DeployRequest := { reqBase with exportType := gs "../../evil" }

/-- A 150 MiB request (one big file part). -/
def reqC4 : DeployRequest :=
  { reqBase with files := [bigPart], bodySize := 157286401 }

/-- Request with a relative path that contains the two-dot substring
only inside a segment name. -/
def reqC5 : DeployRequest := { reqBase with relativePath := gs "a..b" }

/-- Request with a genuine traversal segment in the relative path. -/
def reqC6 : DeployRequest := { reqBase with relativePath := gs "../x" }

/-- A safe archive entry. -/
def entIdx : ZipEntry := { name := gs "index.html", isDir := false, mode := 420 }

/-- A safe archive directory entry with a nested file name. -/
def entCss : ZipEntry :=
  { name := gs "assets/style.css", isDir := false, mode := 420 }

/-- An archive entry that climbs out of the destination directory. -/
def entEvil : ZipEntry := { name := gs "../../evil", isDir := false, mode := 420 }

/-- A two-entry template archive. -/
def arFix : Archive := .entries [entIdx, entCss]

/-- A template-initialization request carrying the archive. -/
def reqC7 : DeployRequest :=
  { reqBase with
    initVal := gs "true"
    templateZip := some arFix
    files := [filePartA, filePartB] }

/-- A normal upload whose middle part fails. -/
def reqC8 : DeployRequest :=
  { reqBase with files := [filePartA, filePartBad, filePartB] }

/-- The same request with the wrong HTTP method. -/
def reqC10 : DeployRequest := { reqBase with method := gs "GET" }

/-- Destination directory used by the extraction examples. -/
def d9 : GoStr := gs "/srv/deploy/hugo"

/-! ### Normal-form predicates on segment lists (verification side) -/

/-- No separator occurs in the segment. -/
def SlashFree (s : Seg) : Prop := ∀ c ∈ s, ¬ c = '/'

/-- A nonempty, separator-free segment. -/
def GoodSeg (s : Seg) : Prop := s ≠ [] ∧ SlashFree s

instance (s : Seg) : Decidable (SlashFree s) := by
  unfold SlashFree; infer_instance

instance (s : Seg) : Decidable (GoodSeg s) := by
  unfold GoodSeg; infer_instance

/-- Two-dot segments occur only as a leading run. -/
def OnlyLeadingDD : List Seg → Prop
  | [] => True
  | s :: rest => if s = dd then OnlyLeadingDD rest else dd ∉ rest

/-- The two-dot discipline of cleaned paths: a rooted path has no
two-dot segment, a relative one has them only at the front. -/
def DotdotOK : Bool → List Seg → Prop
  | true, l => dd ∉ l
  | false, l => OnlyLeadingDD l

/-- The segment lists that Clean can output. -/
def NormalSegs (rooted : Bool) (l : List Seg) : Prop :=
  (∀ s ∈ l, GoodSeg s ∧ s ≠ ['.']) ∧ DotdotOK rooted l

/-! ### Lemmas: splitting and joining -/

theorem splitOnSlash_cons (c : Char) (rest : List Char) :
    splitOnSlash (c :: rest) =
      if c = '/' then [] :: splitOnSlash rest
      else
        match splitOnSlash rest with
        | s :: ss => (c :: s) :: ss
        | [] => [[c]] := rfl

theorem split_ne_nil (r : GoStr) : splitOnSlash r ≠ [] := by
  induction r with
  | nil => simp [splitOnSlash]
  | cons c rest ih =>
    rw [splitOnSlash_cons]
    split
    · simp
    · cases h : splitOnSlash rest with
      | nil => exact absurd h ih
      | cons s ss => simp

theorem splitOnSlash_cons_ne (c : Char) (rest : List Char) (hc : ¬ c = '/')
    (s : Seg) (ss : List Seg) (h : splitOnSlash rest = s :: ss) :
    splitOnSlash (c :: rest) = (c :: s) :: ss := by
  rw [splitOnSlash_cons, if_neg hc, h]

theorem split_of_slashfree (s : GoStr) (h : SlashFree s) : splitOnSlash s = [s] := by
  induction s with
  | nil => rfl
  | cons c rest ih =>
    have hc : ¬ c = '/' := h c (List.mem_cons_self c rest)
    have hrest : SlashFree rest := fun x hx => h x (List.mem_cons_of_mem c hx)
    rw [splitOnSlash_cons_ne c rest hc rest [] (ih hrest)]

theorem split_append_slashfree (s t : GoStr) (h : SlashFree s) :
    splitOnSlash (s ++ '/' :: t) = s :: splitOnSlash t := by
  induction s with
  | nil =>
    show splitOnSlash ('/' :: t) = [] :: splitOnSlash t
    rw [splitOnSlash_cons, if_pos rfl]
  | cons c rest ih =>
    have hc : ¬ c = '/' := h c (List.mem_cons_self c rest)
    have hrest : SlashFree rest := fun x hx => h x (List.mem_cons_of_mem c hx)
    show splitOnSlash (c :: (rest ++ '/' :: t)) = (c :: rest) :: splitOnSlash t
    rw [splitOnSlash_cons_ne c _ hc rest (splitOnSlash t) (ih hrest)]

theorem split_trailing (q : GoStr) :
    splitOnSlash (q ++ ['/']) = splitOnSlash q ++ [[]] := by
  induction q with
  | nil => rfl
  | cons c rest ih =>
    show splitOnSlash (c :: (rest ++ ['/'])) = splitOnSlash (c :: rest) ++ [[]]
    by_cases hc : c = '/'
    · rw [splitOnSlash_cons, if_pos hc, splitOnSlash_cons, if_pos hc, ih]
      rfl
    · cases h : splitOnSlash rest with
      | nil => exact absurd h (split_ne_nil rest)
      | cons s ss =>
        rw [splitOnSlash_cons_ne c rest hc s ss h,
          splitOnSlash_cons_ne c _ hc s (ss ++ [[]]) (by rw [ih, h]; rfl)]
        rfl

theorem split_slashfree (r : GoStr) : ∀ s ∈ splitOnSlash r, SlashFree s := by
  induction r with
  | nil =>
    intro s hs
    simp [splitOnSlash] at hs
    subst hs; intro c hc; cases hc
  | cons c rest ih =>
    intro s hs
    by_cases hc : c = '/'
    · rw [splitOnSlash_cons, if_pos hc] at hs
      rcases List.mem_cons.mp hs with rfl | hs
      · intro x hx; cases hx
      · exact ih s hs
    · cases h : splitOnSlash rest with
      | nil => exact absurd h (split_ne_nil rest)
      | cons s₀ ss =>
        rw [splitOnSlash_cons_ne c rest hc s₀ ss h] at hs
        rcases List.mem_cons.mp hs with rfl | hs
        · intro x hx
          rcases List.mem_cons.mp hx with rfl | hx
          · exact hc
          · exact ih s₀ (by rw [h]; exact List.mem_cons_self s₀ ss) x hx
        · exact ih s (by rw [h]; exact List.mem_cons_of_mem s₀ hs)

theorem split_head (r : GoStr) :
    ∃ ss, splitOnSlash r = (r.takeWhile (fun c => !(c = '/' : Bool))) :: ss := by
  induction r with
  | nil => exact ⟨[], rfl⟩
  | cons c rest ih =>
    by_cases hc : c = '/'
    · subst hc
      refine ⟨splitOnSlash rest, ?_⟩
      rw [splitOnSlash_cons, if_pos rfl]
      simp [List.takeWhile]
    · obtain ⟨ss, hss⟩ := ih
      refine ⟨ss, ?_⟩
      rw [splitOnSlash_cons_ne c rest hc _ ss hss]
      simp [List.takeWhile, hc]

theorem joinSegs_cons (s : Seg) (V : List Seg) (h : V ≠ []) :
    joinSegs (s :: V) = s ++ '/' :: joinSegs V := by
  cases V with
  | nil => exact absurd rfl h
  | cons v vs => rfl

theorem joinSegs_append (S U : List Seg) (hS : S ≠ []) (hU : U ≠ []) :
    joinSegs (S ++ U) = joinSegs S ++ '/' :: joinSegs U := by
  induction S with
  | nil => exact absurd rfl hS
  | cons s S' ih =>
    cases S' with
    | nil =>
      simp only [List.singleton_append]
      rw [joinSegs_cons s U hU]; rfl
    | cons s₁ S'' =>
      rw [List.cons_append, joinSegs_cons s (s₁ :: S'' ++ U) (by simp),
        ih (by simp), joinSegs_cons s (s₁ :: S'') (by simp), List.append_assoc]
      rfl

theorem split_joinSegs (V : List Seg) (hV : V ≠ [])
    (hG : ∀ s ∈ V, SlashFree s) : splitOnSlash (joinSegs V) = V := by
  induction V with
  | nil => exact absurd rfl hV
  | cons v V' ih =>
    cases V' with
    | nil => exact split_of_slashfree v (hG v (List.mem_cons_self v []))
    | cons v₁ V'' =>
      rw [joinSegs_cons v (v₁ :: V'') (by simp),
        split_append_slashfree _ _ (hG v (List.mem_cons_self v _)),
        ih (by simp) (fun s hs => hG s (List.mem_cons_of_mem v hs))]

/-! ### Lemmas: strings.Contains and traversal segments -/

theorem isPrefixOf_iff (l₁ l₂ : GoStr) :
    List.isPrefixOf l₁ l₂ = true ↔ l₁ <+: l₂ := by
  induction l₁ generalizing l₂ with
  | nil =>
    constructor
    · intro _; exact ⟨l₂, rfl⟩
    · intro _; cases l₂ <;> rfl
  | cons a as ih =>
    cases l₂ with
    | nil =>
      constructor
      · intro h; cases h
      · rintro ⟨t, ht⟩; cases ht
    | cons b bs =>
      simp only [List.isPrefixOf, List.cons_prefix_cons, Bool.and_eq_true,
        beq_iff_eq, ih]

theorem goContains_cons (c : Char) (rest sub : GoStr) :
    goContains (c :: rest) sub =
      (List.isPrefixOf sub (c :: rest) || goContains rest sub) := rfl

theorem goContains_of_pref (r sub : GoStr) (h : List.isPrefixOf sub r = true) :
    goContains r sub = true := by
  cases r with
  | nil => exact h
  | cons c rest => rw [goContains_cons, h, Bool.true_or]

theorem goContains_of_infix (r sub : GoStr) (h : sub <:+: r) :
    goContains r sub = true := by
  obtain ⟨p, t, hpt⟩ := h
  induction p generalizing r with
  | nil =>
    subst hpt
    exact goContains_of_pref _ _ ((isPrefixOf_iff _ _).mpr ⟨t, by simp⟩)
  | cons c p' ih =>
    subst hpt
    show goContains (c :: (p' ++ sub ++ t)) sub = true
    rw [goContains_cons, ih (p' ++ sub ++ t) rfl, Bool.or_true]

theorem split_mem_infix (r : GoStr) : ∀ s ∈ splitOnSlash r, s <:+: r := by
  induction r with
  | nil =>
    intro s hs
    simp [splitOnSlash] at hs
    subst hs; exact ⟨[], [], rfl⟩
  | cons c rest ih =>
    intro s hs
    by_cases hc : c = '/'
    · rw [splitOnSlash_cons, if_pos hc] at hs
      rcases List.mem_cons.mp hs with rfl | hs
      · exact ⟨[], c :: rest, rfl⟩
      · obtain ⟨p, t, hpt⟩ := ih s hs
        exact ⟨c :: p, t, by rw [← hpt]; rfl⟩
    · cases h : splitOnSlash rest with
      | nil => exact absurd h (split_ne_nil rest)
      | cons s₀ ss =>
        rw [splitOnSlash_cons_ne c rest hc s₀ ss h] at hs
        rcases List.mem_cons.mp hs with rfl | hs
        · have hpref : s₀ <+: rest := by
            obtain ⟨ss₂, hss₂⟩ := split_head rest
            rw [h] at hss₂
            cases hss₂
            exact ⟨rest.dropWhile (fun c => !(c = '/' : Bool)),
              List.takeWhile_append_dropWhile _ _⟩
          obtain ⟨t, ht⟩ := hpref
          exact ⟨[], t, by rw [← ht]; rfl⟩
        · obtain ⟨p, t, hpt⟩ := ih s (by rw [h]; exact List.mem_cons_of_mem s₀ hs)
          exact ⟨c :: p, t, by rw [← hpt]; rfl⟩

theorem hasDotDot_ne_nil (r : GoStr) (h : hasDotDotSegment r) : r ≠ [] := by
  intro hr
  subst hr
  simp [hasDotDotSegment, splitOnSlash, dd] at h

theorem hasDotDot_contains (r : GoStr) (h : hasDotDotSegment r) :
    goContains r (gs "..") = true := by
  have hinf : dd <:+: r := split_mem_infix r dd h
  have : gs ".." = dd := by decide
  rw [this]
  exact goContains_of_infix r dd hinf

theorem hasDotDot_relPathBad (r : GoStr) (h : hasDotDotSegment r) :
    relPathBad r = true := by
  rw [relPathBad, if_neg (hasDotDot_ne_nil r h)]
  exact hasDotDot_contains r h

/-! ### Lemmas: the leading two-dot discipline -/

theorem old_nil : OnlyLeadingDD [] := trivial

theorem old_cons (s : Seg) (rest : List Seg) :
    OnlyLeadingDD (s :: rest) =
      if s = dd then OnlyLeadingDD rest else dd ∉ rest := rfl

theorem old_of_nodd (l : List Seg) (h : dd ∉ l) : OnlyLeadingDD l := by
  cases l with
  | nil => trivial
  | cons s rest =>
    rw [old_cons]
    have hs : ¬ s = dd := fun hs => h (hs ▸ List.mem_cons_self s rest)
    rw [if_neg hs]
    exact fun hm => h (List.mem_cons_of_mem s hm)

theorem old_append_left (xs ys : List Seg) (h : OnlyLeadingDD (xs ++ ys)) :
    OnlyLeadingDD xs := by
  induction xs with
  | nil => trivial
  | cons x xs' ih =>
    rw [List.cons_append, old_cons] at h
    rw [old_cons]
    by_cases hx : x = dd
    · rw [if_pos hx] at h ⊢
      exact ih h
    · rw [if_neg hx] at h ⊢
      intro hm
      exact h (List.mem_append_left ys hm)

theorem old_append_nondd (xs : List Seg) (x : Seg) (hx : ¬ x = dd)
    (h : OnlyLeadingDD xs) : OnlyLeadingDD (xs ++ [x]) := by
  induction xs with
  | nil =>
    rw [List.nil_append, old_cons, if_neg hx]
    intro hm; cases hm
  | cons y xs' ih =>
    rw [old_cons] at h
    rw [List.cons_append, old_cons]
    by_cases hy : y = dd
    · rw [if_pos hy] at h ⊢
      exact ih h
    · rw [if_neg hy] at h ⊢
      intro hm
      rcases List.mem_append.mp hm with hm | hm
      · exact h hm
      · rcases List.mem_singleton.mp hm with rfl
        exact hx rfl

theorem old_append_dd (xs : List Seg) (h : ∀ s ∈ xs, s = dd) :
    OnlyLeadingDD (xs ++ [dd]) := by
  induction xs with
  | nil => rw [List.nil_append, old_cons, if_pos rfl]; trivial
  | cons y xs' ih =>
    rw [List.cons_append, old_cons, if_pos (h y (List.mem_cons_self y xs'))]
    exact ih (fun s hs => h s (List.mem_cons_of_mem y hs))

theorem old_append_dd_rev (xs : List Seg) (h : OnlyLeadingDD (xs ++ [dd])) :
    ∀ s ∈ xs, s = dd := by
  induction xs with
  | nil => intro s hs; cases hs
  | cons y xs' ih =>
    rw [List.cons_append, old_cons] at h
    intro s hs
    by_cases hy : y = dd
    · rw [if_pos hy] at h
      rcases List.mem_cons.mp hs with rfl | hs
      · exact hy
      · exact ih h s hs
    · rw [if_neg hy] at h
      exact absurd (List.mem_append_right xs' (List.mem_singleton.mpr rfl)) h

/-! ### Lemmas: the Clean segment loop -/

theorem normLoop_nil (rooted : Bool) (acc : List Seg) :
    normLoop rooted acc [] = acc.reverse := rfl

theorem normLoop_cons (rooted : Bool) (acc : List Seg) (s : Seg) (rest : List Seg) :
    normLoop rooted acc (s :: rest) =
      normLoop rooted (normStep rooted acc s) rest := rfl

theorem normStep_skip (rooted : Bool) (acc : List Seg) (s : Seg)
    (h : s = [] ∨ s = ['.']) : normStep rooted acc s = acc := by
  rw [normStep.eq_def, if_pos h]

theorem normStep_push (rooted : Bool) (acc : List Seg) (s : Seg)
    (h1 : ¬ (s = [] ∨ s = ['.'])) (h2 : ¬ s = dd) :
    normStep rooted acc s = s :: acc := by
  rw [normStep.eq_def, if_neg h1, if_neg h2]

theorem normStep_dd_nil (rooted : Bool) :
    normStep rooted [] dd = if rooted then [] else [dd] := by
  rw [normStep.eq_def, if_neg (by decide), if_pos rfl]

theorem normStep_dd_dd (rooted : Bool) (accTail : List Seg) :
    normStep rooted (dd :: accTail) dd =
      if rooted then dd :: accTail else dd :: dd :: accTail := by
  rw [normStep.eq_def, if_neg (by decide), if_pos rfl]
  exact if_pos rfl

theorem normStep_dd_pop (rooted : Bool) (a : Seg) (accTail : List Seg)
    (ha : ¬ a = dd) : normStep rooted (a :: accTail) dd = accTail := by
  rw [normStep.eq_def, if_neg (by decide), if_pos rfl]
  exact if_neg ha

theorem normLoop_fixed (rooted : Bool) (l : List Seg) : ∀ acc : List Seg,
    (∀ s ∈ l, GoodSeg s ∧ s ≠ ['.']) → DotdotOK rooted l →
    ((∀ s ∈ acc, s = dd) ∨ dd ∉ l) →
    normLoop rooted acc l = acc.reverse ++ l := by
  induction l with
  | nil => intro acc _ _ _; rw [normLoop_nil, List.append_nil]
  | cons s l' ih =>
    intro acc hl hdd hacc
    obtain ⟨⟨hne, _⟩, hdot⟩ := hl s (List.mem_cons_self s l')
    have hl' : ∀ x ∈ l', GoodSeg x ∧ x ≠ ['.'] :=
      fun x hx => hl x (List.mem_cons_of_mem s hx)
    rw [normLoop_cons]
    by_cases hsd : s = dd
    · subst hsd
      cases rooted with
      | true => exact absurd (List.mem_cons_self dd l') hdd
      | false =>
        have hall : ∀ x ∈ acc, x = dd := by
          rcases hacc with hacc | hacc
          · exact hacc
          · exact absurd (List.mem_cons_self dd l') hacc
        have hold : OnlyLeadingDD l' := by
          have h0 := hdd
          rw [show DotdotOK false (dd :: l') = OnlyLeadingDD (dd :: l') from rfl,
            old_cons, if_pos rfl] at h0
          exact h0
        cases acc with
        | nil =>
          rw [normStep_dd_nil, if_neg (by simp),
            ih [dd] hl' hold (Or.inl (by intro x hx; cases hx with
              | head => rfl
              | tail _ h => cases h))]
          rfl
        | cons a accTail =>
          have ha : a = dd := hall a (List.mem_cons_self a accTail)
          subst ha
          rw [normStep_dd_dd, if_neg (by simp),
            ih (dd :: dd :: accTail) hl' hold (Or.inl (fun x hx => by
              rcases List.mem_cons.mp hx with rfl | hx
              · rfl
              · exact hall x hx))]
          simp
    · rw [normStep_push rooted acc s (by push_neg; exact ⟨hne, hdot⟩) hsd]
      have hnotl' : dd ∉ l' := by
        cases rooted with
        | true => exact fun hm => hdd (List.mem_cons_of_mem s hm)
        | false =>
          have h0 := hdd
          rw [show DotdotOK false (s :: l') = OnlyLeadingDD (s :: l') from rfl,
            old_cons, if_neg hsd] at h0
          exact h0
      have hdd' : DotdotOK rooted l' := by
        cases rooted with
        | true => exact hnotl'
        | false => exact old_of_nodd l' hnotl'
      rw [ih (s :: acc) hl' hdd' (Or.inr hnotl')]
      simp

theorem normLoop_normal (rooted : Bool) (l : List Seg) : ∀ acc : List Seg,
    (∀ s ∈ l, SlashFree s) →
    (∀ s ∈ acc, GoodSeg s ∧ s ≠ ['.']) →
    (rooted = true → dd ∉ acc) →
    OnlyLeadingDD acc.reverse →
    NormalSegs rooted (normLoop rooted acc l) := by
  induction l with
  | nil =>
    intro acc _ h1 h2 h3
    rw [normLoop_nil]
    refine ⟨fun s hs => h1 s (List.mem_reverse.mp hs), ?_⟩
    cases rooted with
    | true =>
      show dd ∉ acc.reverse
      intro hm
      exact h2 rfl (List.mem_reverse.mp hm)
    | false => exact h3
  | cons s l' ih =>
    intro acc hl h1 h2 h3
    have hsf : SlashFree s := hl s (List.mem_cons_self s l')
    have hl' : ∀ x ∈ l', SlashFree x := fun x hx => hl x (List.mem_cons_of_mem s hx)
    rw [normLoop_cons]
    by_cases hskip : s = [] ∨ s = ['.']
    · rw [normStep_skip rooted acc s hskip]
      exact ih acc hl' h1 h2 h3
    · push_neg at hskip
      by_cases hsd : s = dd
      · subst hsd
        cases acc with
        | nil =>
          rw [normStep_dd_nil]
          cases rooted with
          | true =>
            exact ih [] hl' (by intro x hx; cases hx)
              (fun _ hm => by cases hm) trivial
          | false =>
            refine ih [dd] hl' ?_ (by intro h; cases h) ?_
            · intro x hx
              cases hx with
              | head => exact ⟨⟨by decide, by decide⟩, by decide⟩
              | tail _ h => cases h
            · show OnlyLeadingDD [dd]
              rw [old_cons, if_pos rfl]; trivial
        | cons a accTail =>
          by_cases ha : a = dd
          · subst ha
            rw [normStep_dd_dd]
            cases rooted with
            | true => exact absurd (List.mem_cons_self dd accTail) (h2 rfl)
            | false =>
              have hall : ∀ x ∈ accTail, x = dd := by
                have hrev : OnlyLeadingDD (accTail.reverse ++ [dd]) := by
                  have h0 := h3; rwa [List.reverse_cons] at h0
                intro x hx
                exact old_append_dd_rev accTail.reverse hrev x
                  (List.mem_reverse.mpr hx)
              refine ih (dd :: dd :: accTail) hl' ?_ (by intro h; cases h) ?_
              · intro x hx
                rcases List.mem_cons.mp hx with rfl | hx
                · exact ⟨⟨by decide, by decide⟩, by decide⟩
                · exact h1 x hx
              · show OnlyLeadingDD (dd :: dd :: accTail).reverse
                rw [List.reverse_cons]
                refine old_append_dd _ (fun x hx => ?_)
                have hx2 := List.mem_reverse.mp hx
                rcases List.mem_cons.mp hx2 with rfl | hx2
                · rfl
                · exact hall x hx2
          · rw [normStep_dd_pop rooted a accTail ha]
            refine ih accTail hl'
              (fun x hx => h1 x (List.mem_cons_of_mem a hx))
              (fun hr hm => h2 hr (List.mem_cons_of_mem a hm)) ?_
            have h0 := h3
            rw [List.reverse_cons] at h0
            exact old_append_left _ _ h0
      · rw [normStep_push rooted acc s (by push_neg; exact hskip) hsd]
        refine ih (s :: acc) hl' ?_ ?_ ?_
        · intro x hx
          rcases List.mem_cons.mp hx with rfl | hx
          · exact ⟨⟨hskip.1, hsf⟩, hskip.2⟩
          · exact h1 x hx
        · intro hr hm
          rcases List.mem_cons.mp hm with rfl | hm
          · exact hsd rfl
          · exact h2 hr hm
        · rw [List.reverse_cons]
          exact old_append_nondd _ s hsd h3

theorem normLoop_trailing_empty (rooted : Bool) (l : List Seg) :
    ∀ acc : List Seg, normLoop rooted acc (l ++ [[]]) = normLoop rooted acc l := by
  induction l with
  | nil =>
    intro acc
    show normLoop rooted acc ([] :: []) = normLoop rooted acc []
    rw [normLoop_cons, normStep_skip rooted acc [] (Or.inl rfl)]
  | cons s l' ih =>
    intro acc
    show normLoop rooted acc (s :: (l' ++ [[]])) = normLoop rooted acc (s :: l')
    rw [normLoop_cons, normLoop_cons, ih]

/-! ### Lemmas: render and clean -/

theorem render_true (segs : List Seg) : render true segs = '/' :: joinSegs segs := rfl

theorem render_false_nil : render false [] = ['.'] := rfl

theorem render_false_cons (segs : List Seg) (h : segs ≠ []) :
    render false segs = joinSegs segs := by
  rw [render, if_neg (by simp), if_neg h]

theorem joinSegs_head (v : Seg) (V : List Seg) (_hv : v ≠ []) :
    ∃ tail0, joinSegs (v :: V) = v ++ tail0 := by
  cases V with
  | nil => exact ⟨[], by simp [joinSegs]⟩
  | cons v₁ V' => exact ⟨'/' :: joinSegs (v₁ :: V'), joinSegs_cons v _ (by simp)⟩

theorem clean_nil : clean [] = ['.'] := rfl

theorem clean_eq (s : GoStr) (h : s ≠ []) :
    clean s = render (isRooted s) (normLoop (isRooted s) [] (splitOnSlash s)) := by
  rw [clean, if_neg h]

theorem isRooted_cons (c : Char) (xs : List Char) :
    isRooted (c :: xs) = decide (c = '/') := rfl

theorem clean_normal (s : GoStr) :
    ∃ r segs, clean s = render r segs ∧ NormalSegs r segs := by
  by_cases h : s = []
  · subst h
    exact ⟨false, [], rfl, fun x hx => absurd hx (List.not_mem_nil x), trivial⟩
  · refine ⟨isRooted s, normLoop (isRooted s) [] (splitOnSlash s), clean_eq s h, ?_⟩
    exact normLoop_normal (isRooted s) (splitOnSlash s) []
      (split_slashfree s)
      (fun x hx => absurd hx (List.not_mem_nil x))
      (fun _ hm => absurd hm (List.not_mem_nil dd))
      trivial

theorem normalSegs_goodSegs (r : Bool) (V : List Seg) (h : NormalSegs r V) :
    ∀ s ∈ V, SlashFree s := fun s hs => (h.1 s hs).1.2

theorem clean_render_trailing (r : Bool) (V : List Seg) (hV : V ≠ [])
    (hN : NormalSegs r V) : clean (render r V ++ ['/']) = render r V := by
  obtain ⟨v, V', rfl⟩ : ∃ v V', V = v :: V' := by
    cases V with
    | nil => exact absurd rfl hV
    | cons v V' => exact ⟨v, V', rfl⟩
  obtain ⟨⟨hvne, hvsf⟩, _⟩ := hN.1 v (List.mem_cons_self v V')
  obtain ⟨c, cs, rfl⟩ : ∃ c cs, v = c :: cs := by
    cases v with
    | nil => exact absurd rfl hvne
    | cons c cs => exact ⟨c, cs, rfl⟩
  have hc : ¬ c = '/' := hvsf c (List.mem_cons_self c cs)
  have hsplitV : splitOnSlash (joinSegs ((c :: cs) :: V')) = (c :: cs) :: V' :=
    split_joinSegs _ (by simp) (normalSegs_goodSegs r _ hN)
  have hfix : normLoop r [] ((c :: cs) :: V') = (c :: cs) :: V' :=
    normLoop_fixed r _ [] hN.1 hN.2
      (Or.inl (fun x hx => absurd hx (List.not_mem_nil x)))
  cases r with
  | true =>
    rw [render_true]
    have h1 : ('/' :: joinSegs ((c :: cs) :: V')) ++ ['/']
        = '/' :: (joinSegs ((c :: cs) :: V') ++ ['/']) := by simp
    rw [h1, clean_eq _ (by simp), isRooted_cons]
    have h2 : splitOnSlash (joinSegs ((c :: cs) :: V') ++ ['/'])
        = (c :: cs) :: V' ++ [[]] := by
      rw [split_trailing, hsplitV]
    have h3 : splitOnSlash ('/' :: (joinSegs ((c :: cs) :: V') ++ ['/']))
        = [] :: ((c :: cs) :: V' ++ [[]]) := by
      rw [splitOnSlash_cons, if_pos rfl, h2]
    rw [h3]
    have h4 : decide (('/' : Char) = '/') = true := by decide
    rw [h4]
    rw [normLoop_cons, normStep_skip true [] [] (Or.inl rfl)]
    have h5 : ((c :: cs) :: V') ++ [[]] = (c :: cs) :: (V' ++ [[]]) := rfl
    rw [h5]
    show render true (normLoop true [] ((c :: cs) :: (V' ++ [[]]))) = _
    have h6 : (c :: cs) :: (V' ++ [[]]) = ((c :: cs) :: V') ++ [[]] := rfl
    rw [h6, normLoop_trailing_empty, hfix, render_true]
  | false =>
    rw [render_false_cons _ (by simp)]
    obtain ⟨tail0, htail⟩ := joinSegs_head (c :: cs) V' (by simp)
    have hne : joinSegs ((c :: cs) :: V') ++ ['/'] ≠ [] := by
      rw [htail]; simp
    rw [clean_eq _ hne]
    have hhead : joinSegs ((c :: cs) :: V') ++ ['/'] = c :: (cs ++ tail0 ++ ['/']) := by
      rw [htail]; simp
    have hroot : isRooted (joinSegs ((c :: cs) :: V') ++ ['/']) = false := by
      rw [hhead, isRooted_cons, decide_eq_false hc]
    rw [hroot]
    have h2 : splitOnSlash (joinSegs ((c :: cs) :: V') ++ ['/'])
        = ((c :: cs) :: V') ++ [[]] := by
      rw [split_trailing, hsplitV]
    rw [h2, normLoop_trailing_empty, hfix, render_false_cons _ (by simp)]

/-! ### Lemmas: decoding a separator-terminated path prefix -/

theorem prefix_seg_eq (s : Seg) : ∀ t : Seg, ∀ w w' : GoStr,
    SlashFree s → SlashFree t →
    (s ++ '/' :: w) <+: (t ++ '/' :: w') → s = t ∧ w <+: w' := by
  induction s with
  | nil =>
    intro t w w' _ ht h
    cases t with
    | nil =>
      rw [List.nil_append, List.nil_append, List.cons_prefix_cons] at h
      exact ⟨rfl, h.2⟩
    | cons b t' =>
      rw [List.nil_append, List.cons_append, List.cons_prefix_cons] at h
      exact absurd h.1.symm (ht b (List.mem_cons_self b t'))
  | cons a s' ih =>
    intro t w w' hs ht h
    cases t with
    | nil =>
      rw [List.cons_append, List.nil_append, List.cons_prefix_cons] at h
      exact absurd h.1 (hs a (List.mem_cons_self a s'))
    | cons b t' =>
      rw [List.cons_append, List.cons_append, List.cons_prefix_cons] at h
      obtain ⟨rfl, h2⟩ := h
      obtain ⟨rfl, h3⟩ := ih t' w w'
        (fun c hc => hs c (List.mem_cons_of_mem a hc))
        (fun c hc => ht c (List.mem_cons_of_mem a hc)) h2
      exact ⟨rfl, h3⟩

theorem prefix_seg_false (s : Seg) : ∀ t : Seg, ∀ w : GoStr,
    SlashFree t → ¬ ((s ++ '/' :: w) <+: t) := by
  induction s with
  | nil =>
    intro t w ht h
    cases t with
    | nil =>
      obtain ⟨u, hu⟩ := h
      cases hu
    | cons b t' =>
      rw [List.nil_append, List.cons_prefix_cons] at h
      exact (ht b (List.mem_cons_self b t')) h.1.symm
  | cons a s' ih =>
    intro t w ht h
    cases t with
    | nil =>
      obtain ⟨u, hu⟩ := h
      cases hu
    | cons b t' =>
      rw [List.cons_append, List.cons_prefix_cons] at h
      exact ih t' w (fun c hc => ht c (List.mem_cons_of_mem b hc)) h.2

theorem joinSegs_prefix_decode (S : List Seg) : ∀ T : List Seg,
    S ≠ [] → (∀ s ∈ S, GoodSeg s) → (∀ s ∈ T, GoodSeg s) →
    (joinSegs S ++ ['/']) <+: joinSegs T →
    ∃ U, U ≠ [] ∧ T = S ++ U := by
  induction S with
  | nil => intro T h; exact absurd rfl h
  | cons s S' ih =>
    intro T _ hS hT h
    have hssf : SlashFree s := (hS s (List.mem_cons_self s S')).2
    cases S' with
    | nil =>
      have hA : joinSegs [s] ++ ['/'] = s ++ '/' :: [] := rfl
      rw [hA] at h
      cases T with
      | nil =>
        obtain ⟨u, hu⟩ := h
        rcases List.append_eq_nil.mp hu with ⟨h1, _⟩
        rcases List.append_eq_nil.mp h1 with ⟨_, h3⟩
        cases h3
      | cons t T' =>
        have htsf : SlashFree t := (hT t (List.mem_cons_self t T')).2
        cases T' with
        | nil =>
          exact absurd h (prefix_seg_false s t [] htsf)
        | cons t₁ T'' =>
          rw [joinSegs_cons t (t₁ :: T'') (by simp)] at h
          obtain ⟨rfl, _⟩ := prefix_seg_eq s t [] (joinSegs (t₁ :: T'')) hssf htsf h
          exact ⟨t₁ :: T'', by simp, rfl⟩
    | cons s₁ S'' =>
      have hA : joinSegs (s :: s₁ :: S'') ++ ['/']
          = s ++ '/' :: (joinSegs (s₁ :: S'') ++ ['/']) := by
        rw [joinSegs_cons s (s₁ :: S'') (by simp)]
        simp
      rw [hA] at h
      cases T with
      | nil =>
        obtain ⟨u, hu⟩ := h
        rcases List.append_eq_nil.mp hu with ⟨h1, _⟩
        rcases List.append_eq_nil.mp h1 with ⟨_, h3⟩
        cases h3
      | cons t T' =>
        have htsf : SlashFree t := (hT t (List.mem_cons_self t T')).2
        cases T' with
        | nil =>
          exact absurd h (prefix_seg_false s t _ htsf)
        | cons t₁ T'' =>
          rw [joinSegs_cons t (t₁ :: T'') (by simp)] at h
          obtain ⟨rfl, h2⟩ := prefix_seg_eq s t _ (joinSegs (t₁ :: T'')) hssf htsf h
          obtain ⟨U, hU, hTU⟩ := ih (t₁ :: T'') (by simp)
            (fun x hx => hS x (List.mem_cons_of_mem s hx))
            (fun x hx => hT x (List.mem_cons_of_mem s hx)) h2
          exact ⟨U, hU, by rw [List.cons_append, ← hTU]⟩

theorem render_false_head (T : List Seg) (hT : NormalSegs false T)
    (t : Seg) (T' : List Seg) (hTT : T = t :: T') :
    ∃ c' cs' tl, t = c' :: cs' ∧ ¬ c' = '/' ∧
      render false T = c' :: (cs' ++ tl) := by
  subst hTT
  obtain ⟨⟨htne, htsf⟩, _⟩ := hT.1 t (List.mem_cons_self t T')
  obtain ⟨c', cs', rfl⟩ : ∃ c' cs', t = c' :: cs' := by
    cases t with
    | nil => exact absurd rfl htne
    | cons c' cs' => exact ⟨c', cs', rfl⟩
  obtain ⟨tl, htl⟩ := joinSegs_head (c' :: cs') T' (by simp)
  refine ⟨c', cs', tl, rfl, htsf c' (List.mem_cons_self c' cs'), ?_⟩
  rw [render_false_cons _ (by simp), htl]
  simp

theorem render_prefix_decode (r₀ r : Bool) (S T : List Seg)
    (hS : NormalSegs r₀ S) (hT : NormalSegs r T)
    (h : (render r₀ S ++ ['/']) <+: render r T) :
    r = r₀ ∧ S ≠ [] ∧ ∃ U, U ≠ [] ∧ T = S ++ U := by
  cases r₀ with
  | true =>
    have hA : render true S ++ ['/'] = '/' :: (joinSegs S ++ ['/']) := by
      rw [render_true]; simp
    rw [hA] at h
    cases r with
    | false =>
      exfalso
      cases T with
      | nil =>
        rw [render_false_nil, List.cons_prefix_cons] at h
        exact absurd h.1 (by decide)
      | cons t T' =>
        obtain ⟨c', cs', tl, _, hc', hB⟩ := render_false_head (t :: T') hT t T' rfl
        rw [hB, List.cons_prefix_cons] at h
        exact hc' h.1.symm
    | true =>
      rw [render_true, List.cons_prefix_cons] at h
      have h2 := h.2
      have hSne : S ≠ [] := by
        intro hS0
        subst hS0
        cases T with
        | nil =>
          obtain ⟨u, hu⟩ := h2
          cases hu
        | cons t T' =>
          obtain ⟨⟨htne, htsf⟩, _⟩ := hT.1 t (List.mem_cons_self t T')
          obtain ⟨c', cs', rfl⟩ : ∃ c' cs', t = c' :: cs' := by
            cases t with
            | nil => exact absurd rfl htne
            | cons c' cs' => exact ⟨c', cs', rfl⟩
          obtain ⟨tl, htl⟩ := joinSegs_head (c' :: cs') T' (by simp)
          rw [htl] at h2
          have hB : (c' :: cs') ++ tl = c' :: (cs' ++ tl) := rfl
          rw [hB] at h2
          have h3 : (['/'] : GoStr) = '/' :: ([] : GoStr) := rfl
          rw [show joinSegs ([] : List Seg) ++ ['/'] = '/' :: ([] : GoStr) from rfl,
            List.cons_prefix_cons] at h2
          exact (htsf c' (List.mem_cons_self c' cs')) h2.1.symm
      refine ⟨rfl, hSne, ?_⟩
      exact joinSegs_prefix_decode S T hSne (fun x hx => (hS.1 x hx).1)
        (fun x hx => (hT.1 x hx).1) h2
  | false =>
    cases S with
    | nil =>
      exfalso
      have hA : render false ([] : List Seg) ++ ['/'] = '.' :: '/' :: [] := rfl
      rw [hA] at h
      cases r with
      | true =>
        rw [render_true, List.cons_prefix_cons] at h
        exact absurd h.1 (by decide)
      | false =>
        cases T with
        | nil =>
          rw [render_false_nil, List.cons_prefix_cons] at h
          obtain ⟨u, hu⟩ := h.2
          cases hu
        | cons t T' =>
          obtain ⟨c', cs', tl, htc, hc', hB⟩ := render_false_head (t :: T') hT t T' rfl
          rw [hB, List.cons_prefix_cons] at h
          obtain ⟨hdot, h2⟩ := h
          obtain ⟨⟨_, htsf⟩, htnd⟩ := hT.1 t (List.mem_cons_self t T')
          cases cs' with
          | nil =>
            rw [htc, ← hdot] at htnd
            exact htnd rfl
          | cons c₂ cs'' =>
            have hB2 : (c₂ :: cs'') ++ tl = c₂ :: (cs'' ++ tl) := rfl
            rw [hB2, List.cons_prefix_cons] at h2
            refine (htsf c₂ ?_) h2.1.symm
            rw [htc]
            exact List.mem_cons_of_mem c' (List.mem_cons_self c₂ cs'')
    | cons v S'' =>
      obtain ⟨cv, csv, tl0, hvc, hcv, hA0⟩ :=
        render_false_head (v :: S'') hS v S'' rfl
      cases r with
      | true =>
        exfalso
        have hA : render false (v :: S'') ++ ['/'] = cv :: (csv ++ tl0 ++ ['/']) := by
          rw [hA0]; simp
        rw [hA, render_true, List.cons_prefix_cons] at h
        exact hcv h.1
      | false =>
        cases T with
        | nil =>
          exfalso
          have hA : render false (v :: S'') ++ ['/'] = cv :: (csv ++ tl0 ++ ['/']) := by
            rw [hA0]; simp
          rw [hA, render_false_nil] at h
          obtain ⟨u, hu⟩ := h
          have hlen := congrArg List.length hu
          simp [List.length_append] at hlen
        | cons t T' =>
          refine ⟨rfl, by simp, ?_⟩
          rw [render_false_cons (v :: S'') (by simp),
            render_false_cons (t :: T') (by simp)] at h
          exact joinSegs_prefix_decode (v :: S'') (t :: T') (by simp)
            (fun x hx => (hS.1 x hx).1) (fun x hx => (hT.1 x hx).1) h

/-! ### Lemmas: the parent directory of a safe entry path stays inside -/

theorem join2_nil_nil : join2 [] [] = [] := rfl

theorem join2_nil_left (b : GoStr) (hb : b ≠ []) : join2 [] b = clean b := by
  rw [join2, if_pos rfl, if_neg hb]

theorem join2_cons (a b : GoStr) (ha : a ≠ []) :
    join2 a b = clean (a ++ '/' :: b) := by
  rw [join2, if_neg ha]

theorem render_append_glue (r : Bool) (S U : List Seg) (hS : S ≠ []) (hU : U ≠ []) :
    render r (S ++ U) = render r S ++ '/' :: joinSegs U := by
  cases r with
  | true =>
    rw [render_true, render_true, joinSegs_append S U hS hU]
    simp
  | false =>
    rw [render_false_cons _ (fun h0 => hS (List.append_eq_nil.mp h0).1),
      render_false_cons _ hS, joinSegs_append S U hS hU]

theorem dropWhile_all (p : Char → Bool) (a : List Char) : ∀ b : List Char,
    (∀ c ∈ a, p c = true) →
    List.dropWhile p (a ++ b) = List.dropWhile p b := by
  induction a with
  | nil => intro b _; rfl
  | cons x a' ih =>
    intro b h
    rw [List.cons_append, List.dropWhile_cons,
      if_pos (h x (List.mem_cons_self x a')), ih b (fun c hc => h c (List.mem_cons_of_mem x hc))]

theorem dropLastComponent_append (xs u : GoStr) (hu : SlashFree u) :
    dropLastComponent (xs ++ '/' :: u) = xs ++ ['/'] := by
  rw [dropLastComponent]
  have h1 : (xs ++ '/' :: u).reverse = u.reverse ++ '/' :: xs.reverse := by simp
  rw [h1, dropWhile_all _ u.reverse _ (fun c hc => by
    rw [decide_eq_false (hu c (List.mem_reverse.mp hc))]; rfl)]
  rw [List.dropWhile_cons, if_neg (by simp)]
  simp

theorem normalSegs_append_left (r : Bool) (X Y : List Seg)
    (h : NormalSegs r (X ++ Y)) : NormalSegs r X := by
  refine ⟨fun s hs => h.1 s (List.mem_append_left Y hs), ?_⟩
  cases r with
  | true => exact fun hm => h.2 (List.mem_append_left Y hm)
  | false => exact old_append_left X Y h.2

theorem dirPath_within (d name : GoStr) (h : entryPathOk d name = true) :
    dirPath (join2 d name) = clean d ∨
      (clean d ++ ['/']) <+: dirPath (join2 d name) := by
  have hpre : (clean d ++ ['/']) <+: join2 d name := by
    rw [entryPathOk, hasPref] at h
    exact (isPrefixOf_iff _ _).mp h
  obtain ⟨r₀, S, hDeq, hDN⟩ := clean_normal d
  have hp : ∃ r T, join2 d name = render r T ∧ NormalSegs r T := by
    by_cases hd : d = []
    · subst hd
      by_cases hn : name = []
      · subst hn
        exfalso
        rw [join2_nil_nil] at hpre
        obtain ⟨u, hu⟩ := hpre
        rcases List.append_eq_nil.mp hu with ⟨h1, _⟩
        rcases List.append_eq_nil.mp h1 with ⟨_, h3⟩
        cases h3
      · rw [join2_nil_left name hn]
        exact clean_normal name
    · rw [join2_cons d name hd]
      exact clean_normal (d ++ '/' :: name)
  obtain ⟨r, T, hPeq, hPN⟩ := hp
  rw [hDeq, hPeq] at hpre
  obtain ⟨hr, hSne, U, hUne, hTU⟩ := render_prefix_decode r₀ r S T hDN hPN hpre
  subst hr
  have hsplit : U.dropLast ++ [U.getLast hUne] = U := List.dropLast_append_getLast hUne
  have hW : T = (S ++ U.dropLast) ++ [U.getLast hUne] := by
    rw [hTU, List.append_assoc, hsplit]
  have hWne : S ++ U.dropLast ≠ [] := fun h0 => hSne (List.append_eq_nil.mp h0).1
  have hrender : render r T = render r (S ++ U.dropLast) ++ '/' :: U.getLast hUne := by
    rw [hW, render_append_glue r (S ++ U.dropLast) [U.getLast hUne] hWne (by simp)]
    rfl
  have husf : SlashFree (U.getLast hUne) := by
    have hm : U.getLast hUne ∈ T := by
      rw [hW]
      exact List.mem_append_right _ (List.mem_singleton.mpr rfl)
    exact (hPN.1 _ hm).1.2
  have hWN : NormalSegs r (S ++ U.dropLast) := by
    refine normalSegs_append_left r (S ++ U.dropLast) [U.getLast hUne] ?_
    rw [← hW]
    exact hPN
  have hdir : dirPath (join2 d name) = render r (S ++ U.dropLast) := by
    rw [hPeq, dirPath, hrender, dropLastComponent_append _ _ husf,
      clean_render_trailing r (S ++ U.dropLast) hWne hWN]
  by_cases hU2 : U.dropLast = []
  · left
    rw [hdir, hDeq, hU2, List.append_nil]
  · right
    rw [hdir, hDeq, render_append_glue r S U.dropLast hSne hU2]
    exact ⟨joinSegs U.dropLast, by simp⟩

/-! ### Lemmas: extractZip -/

theorem extractEntries_nil (destDir : GoStr) :
    extractEntries destDir [] = (none, []) := rfl

theorem extractEntries_cons_bad (destDir : GoStr) (e : ZipEntry)
    (rest : List ZipEntry) (h : entryPathOk destDir e.name = false) :
    extractEntries destDir (e :: rest) =
      (some (gs "illegal file path: " ++ e.name), []) := by
  simp [extractEntries, h]

theorem extractEntries_cons_dir (destDir : GoStr) (e : ZipEntry)
    (rest : List ZipEntry) (h : entryPathOk destDir e.name = true)
    (hdir : e.isDir = true) :
    extractEntries destDir (e :: rest) =
      ((extractEntries destDir rest).1,
        FsOp.mkdirAll (join2 destDir e.name) :: (extractEntries destDir rest).2) := by
  simp [extractEntries, h, hdir]

theorem extractEntries_cons_file (destDir : GoStr) (e : ZipEntry)
    (rest : List ZipEntry) (h : entryPathOk destDir e.name = true)
    (hdir : e.isDir = false) :
    extractEntries destDir (e :: rest) =
      ((extractEntries destDir rest).1,
        FsOp.mkdirAll (dirPath (join2 destDir e.name)) ::
          FsOp.createFile (join2 destDir e.name) ::
          (extractEntries destDir rest).2) := by
  simp [extractEntries, h, hdir]

theorem entryPathOk_isPrefix (destDir name : GoStr)
    (h : entryPathOk destDir name = true) :
    (clean destDir ++ ['/']) <+: join2 destDir name := by
  rw [entryPathOk, hasPref] at h
  exact (isPrefixOf_iff _ _).mp h

theorem extractEntries_ops_within (destDir : GoStr) (l : List ZipEntry) :
    ∀ op ∈ (extractEntries destDir l).2,
      (clean destDir ++ ['/']) <+: opPath op ∨ opPath op = clean destDir := by
  induction l with
  | nil => intro op hop; rw [extractEntries_nil] at hop; cases hop
  | cons e rest ih =>
    intro op hop
    cases hOk : entryPathOk destDir e.name with
    | false =>
      rw [extractEntries_cons_bad destDir e rest hOk] at hop
      cases hop
    | true =>
      cases hDir : e.isDir with
      | true =>
        rw [extractEntries_cons_dir destDir e rest hOk hDir] at hop
        rcases List.mem_cons.mp hop with rfl | hop
        · exact Or.inl (entryPathOk_isPrefix destDir e.name hOk)
        · exact ih op hop
      | false =>
        rw [extractEntries_cons_file destDir e rest hOk hDir] at hop
        rcases List.mem_cons.mp hop with rfl | hop
        · rcases dirPath_within destDir e.name hOk with h1 | h1
          · exact Or.inr h1
          · exact Or.inl h1
        · rcases List.mem_cons.mp hop with rfl | hop
          · exact Or.inl (entryPathOk_isPrefix destDir e.name hOk)
          · exact ih op hop

theorem extractEntries_err (destDir : GoStr) (pre : List ZipEntry) :
    ∀ e : ZipEntry, ∀ post : List ZipEntry,
    (∀ x ∈ pre, entryPathOk destDir x.name = true) →
    entryPathOk destDir e.name = false →
    (extractEntries destDir (pre ++ e :: post)).1 =
      some (gs "illegal file path: " ++ e.name) := by
  induction pre with
  | nil =>
    intro e post _ hbad
    rw [List.nil_append, extractEntries_cons_bad destDir e post hbad]
  | cons x pre' ih =>
    intro e post hpre hbad
    have hx : entryPathOk destDir x.name = true := hpre x (List.mem_cons_self x pre')
    have hrec := ih e post (fun y hy => hpre y (List.mem_cons_of_mem x hy)) hbad
    rw [List.cons_append]
    cases hDir : x.isDir with
    | true => rw [extractEntries_cons_dir destDir x _ hx hDir]; exact hrec
    | false => rw [extractEntries_cons_file destDir x _ hx hDir]; exact hrec

theorem extractEntries_none_iff (destDir : GoStr) (l : List ZipEntry) :
    (extractEntries destDir l).1 = none ↔
      ∀ e ∈ l, entryPathOk destDir e.name = true := by
  induction l with
  | nil =>
    rw [extractEntries_nil]
    exact iff_of_true rfl (fun e he => absurd he (List.not_mem_nil e))
  | cons e rest ih =>
    cases hOk : entryPathOk destDir e.name with
    | false =>
      rw [extractEntries_cons_bad destDir e rest hOk]
      constructor
      · intro h; cases h
      · intro h
        exact absurd (h e (List.mem_cons_self e rest)) (by rw [hOk]; decide)
    | true =>
      have hstep : (extractEntries destDir (e :: rest)).1 =
          (extractEntries destDir rest).1 := by
        cases hDir : e.isDir with
        | true => rw [extractEntries_cons_dir destDir e rest hOk hDir]
        | false => rw [extractEntries_cons_file destDir e rest hOk hDir]
      rw [hstep, ih]
      constructor
      · intro h x hx
        rcases List.mem_cons.mp hx with rfl | hx
        · exact hOk
        · exact h x hx
      · intro h x hx
        exact h x (List.mem_cons_of_mem e hx)

/-! ### Lemmas: the constant-time comparison -/

theorem char_toNat_inj (a b : Char) (h : a.toNat = b.toNat) : a = b :=
  Char.ext (UInt32.ext h)

theorem char_toNat_lt (c : Char) : c.toNat < 2 ^ 21 := by
  have h := c.valid
  rcases h with h | ⟨_, h2⟩
  · exact Nat.lt_trans h (by norm_num)
  · exact Nat.lt_trans h2 (by norm_num)

theorem nat_or_eq_zero (a b : Nat) : a ||| b = 0 ↔ a = 0 ∧ b = 0 := by
  constructor
  · intro h
    constructor
    · refine Nat.zero_of_testBit_eq_false (fun i => ?_)
      have h1 : (a ||| b).testBit i = false := by rw [h]; exact Nat.zero_testBit i
      rw [Nat.testBit_lor] at h1
      exact (Bool.or_eq_false_iff.mp h1).1
    · refine Nat.zero_of_testBit_eq_false (fun i => ?_)
      have h1 : (a ||| b).testBit i = false := by rw [h]; exact Nat.zero_testBit i
      rw [Nat.testBit_lor] at h1
      exact (Bool.or_eq_false_iff.mp h1).2
  · rintro ⟨rfl, rfl⟩; rfl

theorem foldl_orxor_lt (l : List (Char × Char)) : ∀ v : Nat, v < 2 ^ 21 →
    l.foldl (fun v p => v ||| (p.1.toNat ^^^ p.2.toNat)) v < 2 ^ 21 := by
  induction l with
  | nil => intro v hv; exact hv
  | cons p l' ih =>
    intro v hv
    exact ih _ (Nat.or_lt_two_pow hv
      (Nat.xor_lt_two_pow (char_toNat_lt p.1) (char_toNat_lt p.2)))

theorem foldl_orxor_zero (l : List (Char × Char)) : ∀ v : Nat,
    (l.foldl (fun v p => v ||| (p.1.toNat ^^^ p.2.toNat)) v = 0 ↔
      v = 0 ∧ ∀ p ∈ l, p.1 = p.2) := by
  induction l with
  | nil =>
    intro v
    constructor
    · intro h; exact ⟨h, fun p hp => absurd hp (List.not_mem_nil p)⟩
    · rintro ⟨rfl, _⟩; rfl
  | cons p l' ih =>
    intro v
    rw [List.foldl_cons, ih]
    rw [nat_or_eq_zero]
    constructor
    · rintro ⟨⟨hv, hx⟩, hall⟩
      refine ⟨hv, fun q hq => ?_⟩
      rcases List.mem_cons.mp hq with rfl | hq
      · exact char_toNat_inj q.1 q.2 (Nat.xor_eq_zero.mp hx)
      · exact hall q hq
    · rintro ⟨hv, hall⟩
      refine ⟨⟨hv, ?_⟩, fun q hq => hall q (List.mem_cons_of_mem p hq)⟩
      rw [Nat.xor_eq_zero]
      exact congrArg Char.toNat (hall p (List.mem_cons_self p l'))

theorem byteXorFold_lt (x y : GoStr) : byteXorFold x y < 2 ^ 31 := by
  have h := foldl_orxor_lt (List.zip x y) 0 (by norm_num)
  exact Nat.lt_trans h (by norm_num)

theorem zip_self_eq (x : GoStr) : ∀ p ∈ List.zip x x, p.1 = p.2 := by
  induction x with
  | nil => intro p hp; cases hp
  | cons a x' ih =>
    intro p hp
    rcases List.mem_cons.mp hp with rfl | hp
    · rfl
    · exact ih p hp

theorem zip_all_eq (x : GoStr) : ∀ y : GoStr, x.length = y.length →
    (∀ p ∈ List.zip x y, p.1 = p.2) → x = y := by
  induction x with
  | nil =>
    intro y hlen _
    cases y with
    | nil => rfl
    | cons b y' => cases hlen
  | cons a x' ih =>
    intro y hlen hall
    cases y with
    | nil => cases hlen
    | cons b y' =>
      have h1 : a = b := hall (a, b) (List.mem_cons_self _ _)
      have h2 : x' = y' := ih y' (by simpa using hlen)
        (fun p hp => hall p (List.mem_cons_of_mem (a, b) hp))
      rw [h1, h2]

theorem byteXorFold_eq_zero (x y : GoStr) (hlen : x.length = y.length) :
    byteXorFold x y = 0 ↔ x = y := by
  rw [byteXorFold, foldl_orxor_zero]
  constructor
  · rintro ⟨_, hall⟩
    exact zip_all_eq x y hlen hall
  · rintro rfl
    exact ⟨rfl, zip_self_eq x⟩

theorem ctByteEq_eq_one (v : Nat) (hv : v < 2 ^ 31) :
    constantTimeByteEq v 0 = 1 ↔ v = 0 := by
  rw [constantTimeByteEq, Nat.xor_zero]
  constructor
  · intro h
    by_contra hne
    have h1 : 1 ≤ v := Nat.pos_of_ne_zero hne
    have h2 : v + (4294967296 - 1) = (v - 1) + 4294967296 := by omega
    rw [h2, Nat.add_mod_right] at h
    have h3 : (v - 1) % 4294967296 = v - 1 := Nat.mod_eq_of_lt (by omega)
    rw [h3, Nat.shiftRight_eq_div_pow] at h
    have h4 : (v - 1) / 2 ^ 31 = 0 := Nat.div_eq_of_lt (by
      have : (2 : Nat) ^ 31 = 2147483648 := by norm_num
      omega)
    rw [h4] at h
    cases h
  · rintro rfl
    rfl

theorem constantTimeCompare_eq_one (x y : GoStr) :
    constantTimeCompare x y = 1 ↔ x = y := by
  by_cases hlen : x.length = y.length
  · rw [constantTimeCompare, if_neg (fun h0 => h0 hlen),
      ctByteEq_eq_one _ (byteXorFold_lt x y), byteXorFold_eq_zero x y hlen]
  · rw [constantTimeCompare, if_pos hlen]
    constructor
    · intro h; cases h
    · rintro rfl; exact absurd rfl hlen

/-! ### Lemmas: handleDeploy branch equations -/

theorem handleDeploy_not_post (cfg : GoConfig) (req : DeployRequest)
    (hm : ¬ req.method = gs "POST") :
    handleDeploy cfg req =
      (sendResponse false (gs "Method not allowed") 405, []) := by
  simp [handleDeploy, hm]

theorem handleDeploy_badrel (cfg : GoConfig) (req : DeployRequest)
    (hm : req.method = gs "POST") (hb : relPathBad req.relativePath = true) :
    handleDeploy cfg req =
      (sendResponse false (gs "Invalid relative path") 400, []) := by
  simp [handleDeploy, hm, hb]

theorem handleDeploy_init_err (cfg : GoConfig) (req : DeployRequest)
    (ar : Archive) (msg : GoStr)
    (hm : req.method = gs "POST") (hb : relPathBad req.relativePath = false)
    (hi : req.initVal = gs "true") (hz : req.templateZip = some ar)
    (he : (extractZipGo ar (deployPathOf cfg req)).1 = some msg) :
    handleDeploy cfg req =
      (sendResponse false (gs "Error extracting ZIP file: " ++ msg) 500,
        FsOp.mkdirAll (deployPathOf cfg req) ::
          (extractZipGo ar (deployPathOf cfg req)).2) := by
  simp [handleDeploy, hm, hb, hi, hz, he]

theorem handleDeploy_init_ok (cfg : GoConfig) (req : DeployRequest)
    (ar : Archive)
    (hm : req.method = gs "POST") (hb : relPathBad req.relativePath = false)
    (hi : req.initVal = gs "true") (hz : req.templateZip = some ar)
    (he : (extractZipGo ar (deployPathOf cfg req)).1 = none) :
    handleDeploy cfg req =
      ({ status := 200, success := true
         message := gs "Successfully initialized " ++ exportTypeOf cfg req
           ++ gs " site template at " ++ deployPathOf cfg req
         files := [] },
       FsOp.mkdirAll (deployPathOf cfg req) ::
         (extractZipGo ar (deployPathOf cfg req)).2) := by
  simp [handleDeploy, hm, hb, hi, hz, he]

theorem handleDeploy_noinit (cfg : GoConfig) (req : DeployRequest)
    (hm : req.method = gs "POST") (hb : relPathBad req.relativePath = false)
    (hi : ¬ req.initVal = gs "true") :
    handleDeploy cfg req =
      normalUpload (deployPathOf cfg req) req.relativePath req.files
        (FsOp.mkdirAll (deployPathOf cfg req)) := by
  simp [handleDeploy, hm, hb, hi]

theorem handleDeploy_init_noar (cfg : GoConfig) (req : DeployRequest)
    (hm : req.method = gs "POST") (hb : relPathBad req.relativePath = false)
    (hi : req.initVal = gs "true") (hz : req.templateZip = none) :
    handleDeploy cfg req =
      normalUpload (deployPathOf cfg req) req.relativePath req.files
        (FsOp.mkdirAll (deployPathOf cfg req)) := by
  simp [handleDeploy, hm, hb, hi, hz]

theorem normalUpload_nil (dp rp : GoStr) (mkOp : FsOp) :
    normalUpload dp rp [] mkOp =
      (sendResponse false (gs "No files sent") 400, [mkOp]) := by
  simp [normalUpload]

theorem normalUpload_cons (dp rp : GoStr) (files : List FilePart) (mkOp : FsOp)
    (h : files ≠ []) :
    normalUpload dp rp files mkOp =
      ({ status := 200, success := true
         message := gs "Successfully saved "
           ++ natToStr (processFiles dp rp files).1.length
           ++ gs " files to " ++ dp
         files := (processFiles dp rp files).1 },
       mkOp :: (processFiles dp rp files).2) := by
  simp [normalUpload, h]

theorem processFiles_records (dp rp : GoStr) (files : List FilePart) :
    (processFiles dp rp files).1 = files.filterMap (fun fh =>
      if fh.openFails || fh.createFails || fh.copyFails then none
      else some (mkRecord rp fh)) := by
  induction files with
  | nil => rfl
  | cons fh rest ih =>
    cases h1 : fh.openFails with
    | true => simp [processFiles, h1, ih]
    | false =>
      cases h2 : fh.createFails with
      | true => simp [processFiles, h1, h2, ih]
      | false =>
        cases h3 : fh.copyFails with
        | true => simp [processFiles, h1, h2, h3, ih]
        | false => simp [processFiles, h1, h2, h3, ih]

theorem handleDeploy_goodrel_ops_ne (cfg : GoConfig) (req : DeployRequest)
    (hm : req.method = gs "POST") (hb : relPathBad req.relativePath = false) :
    (handleDeploy cfg req).2 ≠ [] := by
  by_cases hi : req.initVal = gs "true"
  · cases hz : req.templateZip with
    | none =>
      rw [handleDeploy_init_noar cfg req hm hb hi hz]
      by_cases hf : req.files = []
      · rw [hf, normalUpload_nil]; simp
      · rw [normalUpload_cons _ _ _ _ hf]; simp
    | some ar =>
      cases he : (extractZipGo ar (deployPathOf cfg req)).1 with
      | none => rw [handleDeploy_init_ok cfg req ar hm hb hi hz he]; simp
      | some msg => rw [handleDeploy_init_err cfg req ar msg hm hb hi hz he]; simp
  · rw [handleDeploy_noinit cfg req hm hb hi]
    by_cases hf : req.files = []
    · rw [hf, normalUpload_nil]; simp
    · rw [normalUpload_cons _ _ _ _ hf]; simp

/-! ### Lemmas: the middleware decision -/

theorem hasPref_iff (pre s : GoStr) : hasPref pre s = true ↔ pre <+: s :=
  isPrefixOf_iff pre s

theorem authMiddleware_next_iff (cfg : GoConfig) (method authHeader : GoStr)
    (hm : ¬ method = gs "OPTIONS") :
    authenticateMiddleware cfg method authHeader = .next ↔
      authHeader = gs "Bearer " ++ cfg.authToken := by
  cases hpre : hasPref (gs "Bearer ") authHeader with
  | false =>
    have hout : authenticateMiddleware cfg method authHeader =
        .rejected (gs "Invalid authentication") := by
      simp [authenticateMiddleware, hm, hpre]
    rw [hout]
    constructor
    · intro h; cases h
    · intro h
      exfalso
      have h2 : hasPref (gs "Bearer ") authHeader = true := by
        rw [h]
        exact (hasPref_iff _ _).mpr ⟨cfg.authToken, rfl⟩
      rw [hpre] at h2
      cases h2
  | true =>
    obtain ⟨rest, hrest⟩ := (hasPref_iff _ _).mp hpre
    have htrim : trimPref (gs "Bearer ") authHeader = rest := by
      rw [trimPref, if_pos hpre, ← hrest, List.drop_left]
    by_cases hc : rest = cfg.authToken
    · have h1 : constantTimeCompare (trimPref (gs "Bearer ") authHeader)
          cfg.authToken = 1 := by
        rw [htrim, constantTimeCompare_eq_one]
        exact hc
      have hout : authenticateMiddleware cfg method authHeader = .next := by
        simp [authenticateMiddleware, hm, hpre, h1]
      rw [hout]
      constructor
      · intro _; rw [← hrest, hc]
      · intro _; rfl
    · have h1 : ¬ constantTimeCompare (trimPref (gs "Bearer ") authHeader)
          cfg.authToken = 1 := by
        rw [htrim, constantTimeCompare_eq_one]
        exact hc
      have hout : authenticateMiddleware cfg method authHeader =
          .rejected (gs "Invalid token") := by
        simp [authenticateMiddleware, hm, hpre, h1]
      rw [hout]
      constructor
      · intro h; cases h
      · intro h
        exfalso
        apply hc
        have h2 : gs "Bearer " ++ rest = gs "Bearer " ++ cfg.authToken := by
          rw [hrest, h]
        have h3 := congrArg (List.drop (gs "Bearer ").length) h2
        rwa [List.drop_left, List.drop_left] at h3

/-! ### Claim theorems -/

theorem extractZipGo_entries (l : List ZipEntry) (destDir : GoStr) :
    extractZipGo (.entries l) destDir =
      ((extractEntries destDir l).1,
        FsOp.mkdirAll destDir :: (extractEntries destDir l).2) := rfl

/-- C1: an archive entry whose name, joined with destDir and lexically
normalized, does not land equal to or strictly inside destDir makes
extractZip abort with the illegal-file-path error naming that entry
(stated for the first entry the run rejects, i.e. all entries before it
pass the guard), and every filesystem write of the aborted run is
destDir itself or a path at or strictly inside the cleaned destDir. -/
theorem c1_zipSlip_abort (destDir : GoStr) (pre : List ZipEntry) (e : ZipEntry)
    (post : List ZipEntry)
    (hpre : ∀ x ∈ pre, entryPathOk destDir x.name = true)
    (hbad : specWithinRoot destDir e.name = false) :
    (extractZipGo (.entries (pre ++ e :: post)) destDir).1 =
      some (gs "illegal file path: " ++ e.name) ∧
    ∀ op ∈ (extractZipGo (.entries (pre ++ e :: post)) destDir).2,
      opPath op = destDir ∨ opPath op = clean destDir ∨
        (clean destDir ++ ['/']) <+: opPath op := by
  have hbad2 : entryPathOk destDir e.name = false := by
    rw [specWithinRoot, withinRootPath] at hbad
    exact (Bool.or_eq_false_iff.mp hbad).2
  constructor
  · rw [extractZipGo_entries]
    exact extractEntries_err destDir pre e post hpre hbad2
  · intro op hop
    rw [extractZipGo_entries] at hop
    rcases List.mem_cons.mp hop with rfl | hop
    · exact Or.inl rfl
    · rcases extractEntries_ops_within destDir _ op hop with h | h
      · exact Or.inr (Or.inr h)
      · exact Or.inr (Or.inl h)

/-- C1 witness: a concrete archive with a safe entry followed by a
traversal entry aborts with the error naming the traversal entry. -/
theorem c1_witness :
    (extractZipGo (.entries ([entIdx] ++ entEvil :: []))
        (gs "/srv/deploy")).1 =
      some (gs "illegal file path: " ++ entEvil.name) :=
  (c1_zipSlip_abort (gs "/srv/deploy") [entIdx] entEvil []
    (by decide) (by decide)).1

/-- C2: an export_type value with traversal segments resolves the
deployment path outside the configured deployment root, and the handler
creates directories and writes the uploaded file there. -/
theorem c2_exportType_traversal :
    ∃ et : GoStr, hasDotDotSegment et ∧
      withinRootPath cfgFix.deploymentPath
        (deployPathOf cfgFix { reqBase with exportType := et }) = false ∧
      (handleDeploy cfgFix { reqBase with exportType := et }).1.status = 200 ∧
      (handleDeploy cfgFix { reqBase with exportType := et }).2 =
        [FsOp.mkdirAll (gs "/evil"), FsOp.createFile (gs "/evil/a.txt")] :=
  ⟨gs "../../evil", by decide, by decide, by decide, by decide⟩

/-- C3 counterexample: an OPTIONS request carrying the correct bearer
token short-circuits to the preflight response without executing the
wrapped handler, although the token extracted from its header equals
the configured secret. -/
theorem c3_options_counterexample :
    trimPref (gs "Bearer ") (gs "Bearer s3cret") = cfgFix.authToken ∧
    authenticateMiddleware cfgFix (gs "OPTIONS") (gs "Bearer s3cret") =
      AdmitOutcome.preflight ∧
    AdmitOutcome.preflight ≠ AdmitOutcome.next :=
  ⟨by decide, by decide, by decide⟩

/-- C3 amended: for every non-OPTIONS request the wrapped handler
executes exactly when the Authorization header is the Bearer scheme
followed by the configured secret, and the comparison loop cost depends
only on the lengths of the compared strings, never on where a mismatch
occurs. -/
theorem c3_authGate :
    (∀ cfg : GoConfig, ∀ method authHeader : GoStr, ¬ method = gs "OPTIONS" →
      (authenticateMiddleware cfg method authHeader = AdmitOutcome.next ↔
        authHeader = gs "Bearer " ++ cfg.authToken)) ∧
    (∀ t₁ t₂ secret : GoStr, t₁.length = t₂.length →
      constantTimeCompareCost t₁ secret = constantTimeCompareCost t₂ secret) := by
  constructor
  · exact authMiddleware_next_iff
  · intro t₁ t₂ secret h
    rw [constantTimeCompareCost, constantTimeCompareCost, h]

/-- C3 witness: a POST request with the correct bearer token reaches
the wrapped handler. -/
theorem c3_witness :
    authenticateMiddleware cfgFix (gs "POST") (gs "Bearer s3cret") =
      AdmitOutcome.next :=
  (c3_authGate.1 cfgFix (gs "POST") (gs "Bearer s3cret") (by decide)).mpr
    (by decide)

/-- C4: the 100 MiB body ceiling is not enforced.  A request whose body
exceeds 100 MiB is processed normally end to end (status 200, the big
file written), and the handler result does not depend on the body size
at all, because ParseMultipartForm bounds only in-memory buffering and
its error is discarded. -/
theorem c4_no_body_ceiling :
    104857600 < reqC4.bodySize ∧
    (handleDeploy cfgFix reqC4).1.status = 200 ∧
    (handleDeploy cfgFix reqC4).1.success = true ∧
    FsOp.createFile (gs "/srv/deploy/hugo/big.bin") ∈
      (handleDeploy cfgFix reqC4).2 ∧
    (∀ n : Nat, handleDeploy cfgFix { reqC4 with bodySize := n } =
      handleDeploy cfgFix reqC4) :=
  ⟨by decide, by decide, by decide, by decide, fun _ => rfl⟩

/-- C5 counterexample: the relative path a..b stays inside the root
after joining and normalizing, so per the claim it must be accepted,
yet the handler rejects it with the invalid-relative-path envelope
because its guard tests for the two-dot substring. -/
theorem c5_substring_counterexample :
    specWithinRoot (join2 cfgFix.deploymentPath (gs "hugo")) (gs "a..b") = true ∧
    reqC5.relativePath = gs "a..b" ∧
    (handleDeploy cfgFix reqC5).1 =
      sendResponse false (gs "Invalid relative path") 400 ∧
    (handleDeploy cfgFix reqC5).2 = [] :=
  ⟨by decide, by decide, by decide, by decide⟩

/-- C5 amended: the relative_path form value is rejected with the
invalid-relative-path BadRequest envelope and no filesystem write
exactly when it is non-empty and contains the two-dot substring
anywhere, segment or not. -/
theorem c5_reject_iff_substring (cfg : GoConfig) (req : DeployRequest)
    (hm : req.method = gs "POST") :
    ((handleDeploy cfg req).1 =
        sendResponse false (gs "Invalid relative path") 400 ∧
      (handleDeploy cfg req).2 = []) ↔
    (req.relativePath ≠ [] ∧ goContains req.relativePath (gs "..") = true) := by
  by_cases hb : relPathBad req.relativePath = true
  · refine iff_of_true ?_ ?_
    · rw [handleDeploy_badrel cfg req hm hb]
      exact ⟨rfl, rfl⟩
    · by_cases hr : req.relativePath = []
      · rw [relPathBad, if_pos hr] at hb; cases hb
      · refine ⟨hr, ?_⟩
        rw [relPathBad, if_neg hr] at hb
        exact hb
  · have hb2 : relPathBad req.relativePath = false := by
      cases h : relPathBad req.relativePath
      · rfl
      · exact absurd h hb
    refine iff_of_false ?_ ?_
    · intro h
      exact handleDeploy_goodrel_ops_ne cfg req hm hb2 h.2
    · intro h
      rw [relPathBad, if_neg h.1, h.2] at hb2
      cases hb2

/-- C5 witness for the amended theorem at the concrete request. -/
theorem c5_witness :
    reqC5.relativePath ≠ [] ∧ goContains reqC5.relativePath (gs "..") = true :=
  (c5_reject_iff_substring cfgFix reqC5 (by decide)).mp ⟨by decide, by decide⟩

/-- C6: a relative path containing a genuine two-dot traversal segment
makes the deploy handler answer BadRequest with no filesystem operation
performed for that request. -/
theorem c6_traversal_rejected_before_fs (cfg : GoConfig) (req : DeployRequest)
    (hm : req.method = gs "POST") (ht : hasDotDotSegment req.relativePath) :
    (handleDeploy cfg req).1 =
      sendResponse false (gs "Invalid relative path") 400 ∧
    (handleDeploy cfg req).2 = [] := by
  rw [handleDeploy_badrel cfg req hm (hasDotDot_relPathBad _ ht)]
  exact ⟨rfl, rfl⟩

/-- C6 witness at a concrete traversal path. -/
theorem c6_witness :
    (handleDeploy cfgFix reqC6).1 =
      sendResponse false (gs "Invalid relative path") 400 :=
  (c6_traversal_rejected_before_fs cfgFix reqC6 (by decide) (by decide)).1

/-- C7: with init set and an archive supplied, the handler extracts
into the deployment path and on success immediately returns the summary
naming the export type and the deployment path, produces no file
records, and ignores any attached files; with init set but no archive,
the request is handled exactly like a normal upload. -/
theorem c7_init_template :
    (∀ cfg : GoConfig, ∀ req : DeployRequest, ∀ ar : Archive,
      req.method = gs "POST" →
      relPathBad req.relativePath = false →
      req.initVal = gs "true" →
      req.templateZip = some ar →
      (extractZipGo ar (deployPathOf cfg req)).1 = none →
      (handleDeploy cfg req).1 =
        { status := 200, success := true
          message := gs "Successfully initialized " ++ exportTypeOf cfg req
            ++ gs " site template at " ++ deployPathOf cfg req
          files := [] } ∧
      (handleDeploy cfg req).2 =
        FsOp.mkdirAll (deployPathOf cfg req) ::
          (extractZipGo ar (deployPathOf cfg req)).2 ∧
      (∀ files2 : List FilePart,
        handleDeploy cfg { req with files := files2 } =
          handleDeploy cfg req)) ∧
    (∀ cfg : GoConfig, ∀ req : DeployRequest,
      req.initVal = gs "true" → req.templateZip = none →
      handleDeploy cfg req = handleDeploy cfg { req with initVal := gs "" }) := by
  constructor
  · intro cfg req ar hm hb hi hz he
    have hmain := handleDeploy_init_ok cfg req ar hm hb hi hz he
    refine ⟨by rw [hmain], by rw [hmain], ?_⟩
    intro files2
    have hmain2 :=
      handleDeploy_init_ok cfg { req with files := files2 } ar hm hb hi hz he
    rw [hmain2, hmain]
    rfl
  · intro cfg req hi hz
    by_cases hm : req.method = gs "POST"
    · by_cases hb : relPathBad req.relativePath = true
      · rw [handleDeploy_badrel cfg req hm hb,
          handleDeploy_badrel cfg { req with initVal := gs "" } hm hb]
      · have hb2 : relPathBad req.relativePath = false := by
          cases h : relPathBad req.relativePath
          · rfl
          · exact absurd h hb
        rw [handleDeploy_init_noar cfg req hm hb2 hi hz,
          handleDeploy_noinit cfg { req with initVal := gs "" } hm hb2
            (show ¬ (gs "" = gs "true") by decide)]
        rfl
    · rw [handleDeploy_not_post cfg req hm,
        handleDeploy_not_post cfg { req with initVal := gs "" } hm]

/-- C7 witness at the concrete template request. -/
theorem c7_witness :
    (handleDeploy cfgFix reqC7).1 =
      { status := 200, success := true
        message := gs "Successfully initialized " ++ exportTypeOf cfgFix reqC7
          ++ gs " site template at " ++ deployPathOf cfgFix reqC7
        files := [] } :=
  ((c7_init_template.1) cfgFix reqC7 arFix (by decide) (by decide) (by decide)
    (by decide) (by decide)).1

/-- C8: in normal upload mode each per-file failure is skipped without
aborting the batch or the request: the response is the 200 success
envelope and its manifest is exactly one record per fully saved file,
in submission order. -/
theorem c8_per_file_skip (cfg : GoConfig) (req : DeployRequest)
    (hm : req.method = gs "POST")
    (hb : relPathBad req.relativePath = false)
    (hmode : req.initVal = gs "true" → req.templateZip = none)
    (hne : req.files ≠ []) :
    (handleDeploy cfg req).1.status = 200 ∧
    (handleDeploy cfg req).1.success = true ∧
    (handleDeploy cfg req).1.files = req.files.filterMap (fun fh =>
      if fh.openFails || fh.createFails || fh.copyFails then none
      else some (mkRecord req.relativePath fh)) := by
  have hnorm : handleDeploy cfg req =
      normalUpload (deployPathOf cfg req) req.relativePath req.files
        (FsOp.mkdirAll (deployPathOf cfg req)) := by
    by_cases hi : req.initVal = gs "true"
    · exact handleDeploy_init_noar cfg req hm hb hi (hmode hi)
    · exact handleDeploy_noinit cfg req hm hb hi
  rw [hnorm, normalUpload_cons _ _ _ _ hne]
  exact ⟨rfl, rfl, processFiles_records _ _ _⟩

/-- C8 witness: a batch whose middle file fails to open yields a
manifest with exactly the two successful records. -/
theorem c8_witness :
    (handleDeploy cfgFix reqC8).1.files = reqC8.files.filterMap (fun fh =>
      if fh.openFails || fh.createFails || fh.copyFails then none
      else some (mkRecord reqC8.relativePath fh)) :=
  (c8_per_file_skip cfgFix reqC8 (by decide) (by decide)
    (fun h => absurd h (by decide)) (by decide)).2.2

/-- C9 counterexample: two successful extractions that write different
numbers of entries return the same value (the nil error), so the value
extractZip returns on success is not the count of entries written. -/
theorem c9_no_count_counterexample :
    (extractZipGo (.entries [entIdx]) d9).1 = none ∧
    (extractZipGo (.entries [entIdx, entCss]) d9).1 = none ∧
    (extractZipGo (.entries [entIdx]) d9).1 =
      (extractZipGo (.entries [entIdx, entCss]) d9).1 ∧
    (extractZipGo (.entries [entIdx]) d9).2.length ≠
      (extractZipGo (.entries [entIdx, entCss]) d9).2.length :=
  ⟨by decide, by decide, by decide, by decide⟩

/-- C9 amended: extractZip returns only a Go error value, with no
count: nil exactly when the archive is well formed and every entry
passes the path guard (filesystem writes are modelled as succeeding),
and a non-nil error for a malformed archive. -/
theorem c9_error_contract (destDir : GoStr) :
    (∀ l : List ZipEntry,
      ((extractZipGo (.entries l) destDir).1 = none ↔
        ∀ e ∈ l, entryPathOk destDir e.name = true)) ∧
    (extractZipGo .malformed destDir).1 =
      some (gs "zip: not a valid zip file") := by
  constructor
  · intro l
    rw [extractZipGo_entries]
    exact extractEntries_none_iff destDir l
  · rfl

/-- C9 witness: the malformed-archive component of the contract at a
concrete destination. -/
theorem c9_witness :
    (extractZipGo .malformed d9).1 = some (gs "zip: not a valid zip file") :=
  (c9_error_contract d9).2

/-- C10 counterexample: a GET request to the deploy handler is answered
with status 405 Method Not Allowed, not with the BadRequest status. -/
theorem c10_wrong_method_counterexample :
    (handleDeploy cfgFix reqC10).1 =
      sendResponse false (gs "Method not allowed") 405 ∧
    ¬ (handleDeploy cfgFix reqC10).1.status = 400 :=
  ⟨by decide, by decide⟩

/-- C10 amended: every request with a method other than POST is
answered with a single JSON error envelope carrying status 405 and the
method-not-allowed message, and no filesystem operation occurs. -/
theorem c10_method_gate (cfg : GoConfig) (req : DeployRequest)
    (hm : ¬ req.method = gs "POST") :
    handleDeploy cfg req =
      (sendResponse false (gs "Method not allowed") 405, []) :=
  handleDeploy_not_post cfg req hm

/-- C10 witness at the concrete GET request. -/
theorem c10_witness :
    handleDeploy cfgFix reqC10 =
      (sendResponse false (gs "Method not allowed") 405, []) :=
  c10_method_gate cfgFix reqC10 (by decide)

end HugoDeploy
